import Mathlib

/-!
Verification development for the zaaktypecataloguscomponent repository.

The repository exposes catalog resources over a REST API with field
selection (`fields=`), relation expansion (`expand=`), search (`zoek=`)
and a small data model with mutual-exclusion validation rules.  This file
embeds, in Lean, the view-resolver algorithm of spec section 4.1, the
search semantics of spec section 6, the Eigenschap validation rule, and
the BesluitType model declared in
`src/ztc/datamodel/models/besluittype.py`, and proves the claimed
properties about them.
-/

namespace ZTC

/-- Modelled from the spec: a `FieldValue` of the output tree is one of
`Scalar`, `Link` (opaque reference such as a URL), `EmbeddedSingle` or
`EmbeddedMany` (spec section 3, ResourceNode). -/
inductive FieldValue where
  | scalar (value : String)
  | link (ref : String)
  | embeddedSingle (node : List (String × FieldValue))
  | embeddedMany (nodes : List (List (String × FieldValue)))

/-- Modelled from the spec: a ResourceNode is a mapping from field name to
FieldValue (spec section 3); rendered here as an ordered association list,
since the output preserves the entity's canonical field order. -/
abbrev ResourceNode := List (String × FieldValue)

/-- Modelled from the spec: one field of an entity as supplied by the
Resource Graph Provider.  A field is either a scalar, or a relation
(RelationDescriptor of spec section 3: name, cardinality One or Many,
isExpandable, and the fetched data; the `ref` string is the opaque link
rendered when the relation is not expanded).  Cardinality is encoded by
the constructor: `relOne` is cardinality One (fetch yields a single node)
and `relMany` is cardinality Many (fetch yields an ordered sequence). -/
inductive EntityField where
  | scalarF (name : String) (value : String)
  | relOne (name : String) (isExpandable : Bool) (ref : String)
      (child : List EntityField)
  | relMany (name : String) (isExpandable : Bool) (ref : String)
      (children : List (List EntityField))

/-- Modelled from the spec: an entity is its ordered list of fields
(scalars and declared relations), in canonical field order. -/
abbrev Entity := List EntityField

/-- Modelled from the spec: the error taxonomy of spec section 7.
`unknownField`, `unknownRelation`, `notExpandable` and `ambiguousPath` are
typed caller-input failures carrying the offending field or path name. -/
inductive ResolveError where
  | unknownField (name : String)
  | unknownRelation (name : String)
  | notExpandable (name : String)
  | ambiguousPath (name : String)
deriving DecidableEq

/-- Modelled from the spec: an ExpansionSpec is either an explicit set of
expansion paths (each a non-empty sequence of segment names) or the
distinguished "expand all one level" value (spec sections 3 and 4.1). -/
inductive ExpansionSpec where
  | explicitPaths (paths : List (List String))
  | expandAll

/-- The name of an entity field. -/
def fieldName : EntityField → String
  | .scalarF n _ => n
  | .relOne n _ _ _ => n
  | .relMany n _ _ _ => n

/-- The canonical field names of an entity, in canonical order. -/
def canonicalNames (e : Entity) : List String := e.map fieldName

/-- Look up a field of an entity by name (first match). -/
def findField : Entity → String → Option EntityField
  | [], _ => none
  | fd :: rest, n => if fieldName fd = n then some fd else findField rest n

/-- Whether a field is a relation (rather than a scalar). -/
def isRelField : EntityField → Bool
  | .scalarF _ _ => false
  | .relOne _ _ _ _ => true
  | .relMany _ _ _ _ => true

/-- The opaque link reference of a field (empty for scalars). -/
def fieldRef : EntityField → String
  | .scalarF _ _ => ""
  | .relOne _ _ r _ => r
  | .relMany _ _ r _ => r

/-- Whether a field is a relation declared expandable. -/
def fieldIsExpandable : EntityField → Bool
  | .scalarF _ _ => false
  | .relOne _ x _ _ => x
  | .relMany _ x _ _ => x

/-- Names of the relations declared expandable on an entity, in canonical
order. -/
def expandableNames (e : Entity) : List String :=
  e.filterMap (fun fd =>
    if isRelField fd && fieldIsExpandable fd then some (fieldName fd) else none)

/-- First-appearance deduplication of a list of names. -/
def dd : List String → List String
  | [] => []
  | x :: xs => x :: (dd xs).filter (fun y => decide (y ≠ x))

/-- Modelled from the spec: the distinct first segments of the expansion
paths, in first-appearance order (spec section 4.1 step 2, "partition the
ExpansionSpec paths by their first segment"). -/
def dedupHeads (ps : List (List String)) : List String :=
  dd (ps.filterMap List.head?)

/-- Modelled from the spec: the remaining sub-paths of all paths sharing
first segment `s`, with `s` stripped; empty remainders carry no further
directive and are dropped (spec section 4.1 step 2). -/
def suffixesFor (s : String) (ps : List (List String)) : List (List String) :=
  ps.filterMap (fun p =>
    match p with
    | [] => none
    | h :: t => if h = s then (match t with | [] => none | _ => some t) else none)

/-- Whether a sub-path is a single segment naming a scalar field of the
fetched entity: such a segment is a pure field selection on the embedded
node, not a further expansion. -/
def isScalarLeafPath (e : Entity) (p : List String) : Bool :=
  match p with
  | [x] =>
    match findField e x with
    | some (.scalarF _ _) => true
    | _ => false
  | _ => false

/-- The sub-paths that remain expansion directives inside a fetched
entity: scalar-leaf selections are removed (they act only through the
nested field restriction), deeper paths are kept. -/
def childPaths (sufs : List (List String)) (e : Entity) : List (List String) :=
  sufs.filter (fun p => !(isScalarLeafPath e p))

/-- Modelled from the spec: the nested field restriction induced by the
sub-paths of an expanded relation — the first segments of the remaining
sub-paths (spec section 4.1 step 2 together with the hierarchical
ExpansionSpec invariant of section 3); no sub-paths means no
restriction. -/
def childFlds (sufs : List (List String)) : List String :=
  dd (sufs.filterMap List.head?)

/-- Association lookup in a resource node or embed list (first match). -/
def lookupName (n : String) : List (String × FieldValue) → Option FieldValue
  | [] => none
  | (k, v) :: rest => if k = n then some v else lookupName n rest

/-- Modelled from the spec: validation of the FieldSpec against the
entity's canonical field set — a name not present is an
`unknownField` error, never silently dropped (spec section 4.1 step 1). -/
def checkFields (e : Entity) : List String → Except ResolveError Unit
  | [] => .ok ()
  | f :: rest =>
    if f ∈ canonicalNames e then checkFields e rest
    else .error (.unknownField f)

/-- Render one entity field of the output: scalars stay scalars; a
relation renders as its embedded value when one was produced for it, and
as a `link` otherwise (spec section 4.1 steps 2 and 3). -/
def renderField (embeds : List (String × FieldValue)) (fd : EntityField) :
    String × FieldValue :=
  match fd with
  | .scalarF n v => (n, .scalar v)
  | .relOne n _ ref _ =>
    (n, match lookupName n embeds with | some v => v | none => .link ref)
  | .relMany n _ ref _ =>
    (n, match lookupName n embeds with | some v => v | none => .link ref)

/-- Modelled from the spec: assemble the output node in the entity's
canonical field order, retaining only the FieldSpec-selected fields when
the FieldSpec is non-empty (spec section 4.1 steps 1 and 3). -/
def assembleFields (e : Entity) (flds : List String)
    (embeds : List (String × FieldValue)) : ResourceNode :=
  e.filterMap (fun fd =>
    if flds = [] ∨ fieldName fd ∈ flds then some (renderField embeds fd)
    else none)

/-- A fetch log: each entry is the expansion path position at which a
relation `fetch()` was invoked (a root-level fetch of relation `R` is the
entry `[R]`).  The log witnesses the at-most-one-fetch guarantee of spec
section 4.1. -/
abbrev FetchLog := List (List String)

mutual

/-- Modelled from the spec: process one first segment `s` (spec section
4.1 step 2).  An unknown name is `unknownRelation`, a scalar reached as an
expansion segment is `ambiguousPath` (spec section 7), a relation not
declared expandable is `notExpandable`; otherwise the relation's fetched
data is embedded: cardinality One recursively resolves the single node,
cardinality Many resolves each fetched node in fetch order.  `rec` is the
recursive resolution of the nested directives. -/
def processOne
    (rec : List (List String) → Entity → List String →
      Except ResolveError (ResourceNode × FetchLog))
    (s : String) (sufs : List (List String)) (e : Entity) :
    Except ResolveError (FieldValue × FetchLog) :=
  match findField e s with
  | none => .error (.unknownRelation s)
  | some (.scalarF _ _) => .error (.ambiguousPath s)
  | some (.relOne _ isExp _ child) =>
    if isExp then
      match rec (childPaths sufs child) child (childFlds sufs) with
      | .error err => .error err
      | .ok (nd, lg) => .ok (.embeddedSingle nd, lg)
    else .error (.notExpandable s)
  | some (.relMany _ isExp _ kids) =>
    if isExp then
      match processMany rec sufs kids with
      | .error err => .error err
      | .ok (nds, lg) => .ok (.embeddedMany nds, lg)
    else .error (.notExpandable s)

/-- Modelled from the spec: resolve each fetched node of a cardinality
Many relation independently, preserving the fetch order (spec section 4.1
step 2, "preserving the fetch order ... the resolver does not
re-sort"). -/
def processMany
    (rec : List (List String) → Entity → List String →
      Except ResolveError (ResourceNode × FetchLog))
    (sufs : List (List String)) :
    List Entity → Except ResolveError (List ResourceNode × FetchLog)
  | [] => .ok ([], [])
  | k :: rest =>
    match rec (childPaths sufs k) k (childFlds sufs) with
    | .error err => .error err
    | .ok (nd, lg) =>
      match processMany rec sufs rest with
      | .error err => .error err
      | .ok (nds, lgs) => .ok (nd :: nds, lg ++ lgs)

end

/-- Modelled from the spec: process the distinct first segments in order.
Each segment's relation is fetched exactly once (one `[s]` log entry per
distinct segment), and the nested fetch log is re-based under `s`. -/
def processHeads
    (rec : List (List String) → Entity → List String →
      Except ResolveError (ResourceNode × FetchLog))
    (heads : List String) (ps : List (List String)) (e : Entity) :
    Except ResolveError (List (String × FieldValue) × FetchLog) :=
  match heads with
  | [] => .ok ([], [])
  | s :: rest =>
    match processOne rec s (suffixesFor s ps) e with
    | .error err => .error err
    | .ok (v, lg) =>
      match processHeads rec rest ps e with
      | .error err => .error err
      | .ok (vs, lgs) =>
        .ok ((s, v) :: vs, ([s] :: lg.map (fun q => s :: q)) ++ lgs)

/-- Modelled from the spec: one level of resolution, processing the given
first segments in the given order: FieldSpec validation first, then
expansion of each segment, then assembly in canonical field order (spec
section 4.1).  The processing order of the segments is a parameter so
that independence from fetch completion order can be stated. -/
def levelResolveWith
    (rec : List (List String) → Entity → List String →
      Except ResolveError (ResourceNode × FetchLog))
    (heads : List String) (ps : List (List String)) (e : Entity)
    (flds : List String) : Except ResolveError (ResourceNode × FetchLog) :=
  match checkFields e flds with
  | .error err => .error err
  | .ok _ =>
    match processHeads rec heads ps e with
    | .error err => .error err
    | .ok (embeds, lg) => .ok (assembleFields e flds embeds, lg)

/-- Modelled from the spec: the recursive resolver on explicit expansion
paths.  The fuel argument bounds the recursion depth; the wrapper
`resolve` supplies the maximal path length, which always suffices since
each recursive call strips one segment from every remaining path.  At
fuel zero the recursive continuation is a dead branch that is never
invoked under sufficient fuel (no sub-path survives stripping). -/
def resolveF : Nat → List (List String) → Entity → List String →
    Except ResolveError (ResourceNode × FetchLog)
  | 0, ps, e, flds =>
    levelResolveWith (fun _ _ _ => .error (.unknownRelation ""))
      (dedupHeads ps) ps e flds
  | n + 1, ps, e, flds =>
    levelResolveWith (resolveF n) (dedupHeads ps) ps e flds

/-- The recursive continuation used at a given fuel level: the dead
branch at fuel zero, `resolveF n` at fuel `n + 1`. -/
def recAt : Nat → List (List String) → Entity → List String →
    Except ResolveError (ResourceNode × FetchLog)
  | 0 => fun _ _ _ => .error (.unknownRelation "")
  | n + 1 => resolveF n

/-- The maximal length of an expansion path in the set. -/
def maxPathLen (ps : List (List String)) : Nat :=
  ps.foldr (fun p m => max p.length m) 0

/-- Modelled from the spec: the View Resolver contract
`resolve(root, relations, expansion, fields)` of spec section 4.1; the
root entity carries its relation descriptors, so `root` and `relations`
are the single `Entity` argument.  The result pairs the output tree with
the fetch log.  Expand-all mode embeds every relation declared expandable
exactly one level deep (spec section 4.1 step 4). -/
def resolve (e : Entity) (spec : ExpansionSpec) (flds : List String) :
    Except ResolveError (ResourceNode × FetchLog) :=
  match spec with
  | .explicitPaths ps => resolveF (maxPathLen ps) ps e flds
  | .expandAll =>
    resolveF 1 ((expandableNames e).map (fun n => [n])) e flds

/-- Modelled from the spec: a resolver run in which the root-level
relation fetches complete (and are therefore collected) in the order
`order` rather than in declared order; spec section 5 requires the output
tree to be independent of this order. -/
def resolveSched (order : List String) (ps : List (List String))
    (e : Entity) (flds : List String) :
    Except ResolveError (ResourceNode × FetchLog) :=
  levelResolveWith (recAt (maxPathLen ps)) order ps e flds

/-- The view of an entity with no expansion and no field restriction:
every scalar shown, every relation a link. -/
def linkView (e : Entity) : ResourceNode :=
  e.map (fun fd =>
    match fd with
    | .scalarF n v => (n, .scalar v)
    | .relOne n _ ref _ => (n, .link ref)
    | .relMany n _ ref _ => (n, .link ref))

/-- The expected output of expand-all mode: every expandable relation
embedded exactly one level deep (its own relations remaining links),
every other relation a link. -/
def expandAllView (e : Entity) : ResourceNode :=
  e.map (fun fd =>
    match fd with
    | .scalarF n v => (n, .scalar v)
    | .relOne n isExp ref c =>
      (n, if isExp then .embeddedSingle (linkView c) else .link ref)
    | .relMany n isExp ref ks =>
      (n, if isExp then .embeddedMany (ks.map linkView) else .link ref))

/-- The embedded value a successful `processOne` produces for segment
`s`, used to describe the embed list as a pointwise map over the
segment order. -/
def headValue
    (rec : List (List String) → Entity → List String →
      Except ResolveError (ResourceNode × FetchLog))
    (ps : List (List String)) (e : Entity) (s : String) : FieldValue :=
  match processOne rec s (suffixesFor s ps) e with
  | .ok (v, _) => v
  | .error _ => .link ""

/-- The value expand-all mode embeds for an expandable relation named
`s`: its fetched data one level deep, sub-relations as links. -/
def expandValue (e : Entity) (s : String) : FieldValue :=
  match findField e s with
  | some (.relOne _ _ _ c) => .embeddedSingle (linkView c)
  | some (.relMany _ _ _ ks) => .embeddedMany (ks.map linkView)
  | _ => .link ""

/-- Modelled from the spec: split a free-text search query into
whitespace-delimited terms (spec section 6, search parameter `zoek`);
the accumulator collects the current term in reverse. -/
def splitTermsAux : List Char → List Char → List (List Char)
  | [], acc => if acc = [] then [] else [acc.reverse]
  | c :: rest, acc =>
    if c = ' ' then
      if acc = [] then splitTermsAux rest []
      else acc.reverse :: splitTermsAux rest []
    else splitTermsAux rest (c :: acc)

/-- The whitespace-delimited terms of a search query. -/
def splitTerms (q : List Char) : List (List Char) := splitTermsAux q []

/-- A term matches a searchable field when it occurs as a contiguous
substring of the field's text (partial matches count, per the search
tests of `src/ztc/api/tests/test_api_strategy.py`). -/
def termMatches (t fieldText : List Char) : Bool := decide (t <:+: fieldText)

/-- One search term narrows the result set to the resources with at
least one searchable field matching the term. -/
def applySearchTerm (rs : List (List (List Char))) (t : List Char) :
    List (List (List Char)) :=
  rs.filter (fun r => r.any (fun f => termMatches t f))

/-- Modelled from the spec: the search results (the search backend itself
is not under `src/`, only its tests are).  Each whitespace-delimited term
successively narrows the result set across all searchable fields, so the
terms are ANDed together (spec section 6).  A resource is represented by
the list of its searchable field texts. -/
def searchResults (rs : List (List (List Char))) (q : List Char) :
    List (List (List Char)) :=
  (splitTerms q).foldl applySearchTerm rs

/-- Modelled from the spec: the Eigenschap record with its two mutually
exclusive attribute groups (the model's `clean` method is not under
`src/`; only its tests and admin declarations are).  The two foreign keys
to EigenschapSpecificatie and EigenschapReferentie are identifiers. -/
structure Eigenschap where
  eigenschapnaam : String
  definitie : String
  toelichting : String
  specificatie_van_eigenschap : Option Nat
  referentie_naar_eigenschap : Option Nat

/-- The validation message of the mutual-exclusion rule, as asserted by
`src/ztc/datamodel/tests/test_eigenschap_model.py`. -/
def eigenschapCleanMsg : String :=
  "Één van twee groepen attributen is verplicht: specificatie van eigenschap of referentie naar eigenschap"

/-- Modelled from the spec: `Eigenschap.clean` fails with a
ValidationError when both attribute groups are set and when neither is
set, and succeeds when exactly one is set (the repository's
mutual-exclusion validation rule, fixed by the model tests). -/
def eigenschapClean (e : Eigenschap) : Except String Unit :=
  if e.specificatie_van_eigenschap.isSome &&
      e.referentie_naar_eigenschap.isSome then
    .error eigenschapCleanMsg
  else if !e.specificatie_van_eigenschap.isSome &&
      !e.referentie_naar_eigenschap.isSome then
    .error eigenschapCleanMsg
  else
    .ok ()

/-- The BesluitType record of `src/ztc/datamodel/models/besluittype.py`:
nullable character fields are `Option String`, the two
PositiveSmallIntegerFields are natural numbers (`publicatietermijn`
nullable, `reactietermijn` required), `publicatie_indicatie` is the JaNee
choice and `maakt_deel_uit_van` is the required foreign key to the owning
Catalogus. -/
structure BesluitType where
  besluittype_omschrijving : Option String
  besluittype_omschrijving_generiek : Option String
  besluitcategorie : Option String
  reactietermijn : Nat
  publicatie_indicatie : String
  publicatietekst : Option String
  publicatietermijn : Option Nat
  toelichting : Option String
  maakt_deel_uit_van : Nat
deriving DecidableEq

/-- The field validators of BesluitType: `MaxValueValidator(999)` on
`reactietermijn`, and on `publicatietermijn` when it is set
(besluittype.py). -/
def besluitTypeFieldsValid (b : BesluitType) : Bool :=
  decide (b.reactietermijn ≤ 999) &&
    (match b.publicatietermijn with
     | none => true
     | some p => decide (p ≤ 999))

/-- The `unique_together = ('maakt_deel_uit_van', 'besluittype_omschrijving')`
declaration of besluittype.py as the host framework enforces it: the
uniqueness check is skipped entirely when a field of the tuple is NULL
(the framework's unique checks exclude lookups whose value is None, and
SQL UNIQUE constraints do not compare NULLs equal; `besluittype_omschrijving`
is declared `null=True`). -/
def besluitTypeUniqueOk (store : List BesluitType) (b : BesluitType) : Bool :=
  match b.besluittype_omschrijving with
  | none => true
  | some _ =>
    store.all (fun o =>
      !(decide (o.maakt_deel_uit_van = b.maakt_deel_uit_van) &&
        decide (o.besluittype_omschrijving = b.besluittype_omschrijving)))

/-- Validated save of a BesluitType: the record is stored only when its
field validators and the uniqueness check pass. -/
def saveBesluitType (store : List BesluitType) (b : BesluitType) :
    Option (List BesluitType) :=
  if besluitTypeFieldsValid b && besluitTypeUniqueOk store b then
    some (store ++ [b])
  else none

/-- A store built by validated-saving each record in turn. -/
def buildStore (bs : List BesluitType) : Option (List BesluitType) :=
  bs.foldlM saveBesluitType []

/-- A concrete BesluitType with a NULL omschrijving in Catalogus 1. -/
def btNullA : BesluitType :=
  { besluittype_omschrijving := none
    besluittype_omschrijving_generiek := none
    besluitcategorie := none
    reactietermijn := 14
    publicatie_indicatie := "J"
    publicatietekst := none
    publicatietermijn := none
    toelichting := some "eerste"
    maakt_deel_uit_van := 1 }

/-- A second BesluitType with a NULL omschrijving in the same Catalogus. -/
def btNullB : BesluitType :=
  { besluittype_omschrijving := none
    besluittype_omschrijving_generiek := none
    besluitcategorie := none
    reactietermijn := 30
    publicatie_indicatie := "N"
    publicatietekst := none
    publicatietermijn := none
    toelichting := some "tweede"
    maakt_deel_uit_van := 1 }

/-- A concrete BesluitType with a non-NULL omschrijving. -/
def btNamed : BesluitType :=
  { besluittype_omschrijving := some "Vergunning"
    besluittype_omschrijving_generiek := none
    besluitcategorie := none
    reactietermijn := 14
    publicatie_indicatie := "J"
    publicatietekst := none
    publicatietermijn := some 10
    toelichting := none
    maakt_deel_uit_van := 1 }

/-- A concrete fetched BesluitType node for the worked examples. -/
def besluitA : Entity :=
  [.scalarF "besluittype_omschrijving" "Vergunning",
   .scalarF "reactietermijn" "14"]

/-- A second concrete fetched BesluitType node. -/
def besluitB : Entity :=
  [.scalarF "besluittype_omschrijving" "Ontheffing",
   .scalarF "reactietermijn" "30"]

/-- A concrete fetched InformatieObjectType node. -/
def informatieObjectTypeA : Entity :=
  [.scalarF "omschrijving" "Besluitdocument",
   .scalarF "categorie" "informeren"]

/-- A concrete Catalogus entity: three scalars, a cardinality-Many
expandable relation, a cardinality-One expandable relation, and a
non-expandable relation. -/
def catalogusE : Entity :=
  [.scalarF "domein" "DEMO",
   .scalarF "rsin" "123456789",
   .scalarF "contactpersoon_beheer_naam" "John Doe",
   .relMany "besluittypen" true "/api/v1/catalogussen/1/besluittypen/"
     [besluitA, besluitB],
   .relOne "informatieobjecttype" true "/api/v1/informatieobjecttypen/1/"
     informatieObjectTypeA,
   .relOne "intern" false "/intern/1/" []]

/-- A small entity with two expandable relations, for the
completion-order example. -/
def tinyE : Entity :=
  [.relOne "a" true "/a/" [.scalarF "x" "1"],
   .relOne "b" true "/b/" [.scalarF "y" "2"]]

theorem mem_dd {y : String} {l : List String} : y ∈ dd l ↔ y ∈ l := by
  induction l with
  | nil => simp [dd]
  | cons x xs ih =>
    simp only [dd, List.mem_cons, List.mem_filter, decide_eq_true_eq]
    constructor
    · rintro (rfl | ⟨hy, _⟩)
      · exact Or.inl rfl
      · exact Or.inr (ih.mp hy)
    · rintro (rfl | hy)
      · exact Or.inl rfl
      · by_cases hxy : y = x
        · exact Or.inl hxy
        · exact Or.inr ⟨ih.mpr hy, hxy⟩

theorem dd_nodup (l : List String) : (dd l).Nodup := by
  induction l with
  | nil => simp [dd]
  | cons x xs ih =>
    refine List.Nodup.cons ?_ (List.Nodup.filter _ ih)
    intro hx
    rcases List.mem_filter.mp hx with ⟨_, hne⟩
    exact (decide_eq_true_eq.mp hne) rfl

theorem dd_eq_self_of_nodup {l : List String} (h : l.Nodup) : dd l = l := by
  induction l with
  | nil => rfl
  | cons x xs ih =>
    rcases List.nodup_cons.mp h with ⟨hx, hxs⟩
    have : dd xs = xs := ih hxs
    simp only [dd, this]
    congr 1
    apply List.filter_eq_self.mpr
    intro a ha
    simp only [decide_eq_true_eq]
    intro hax
    exact hx (hax ▸ ha)

theorem mem_dedupHeads {R : String} {ps : List (List String)} :
    R ∈ dedupHeads ps ↔ ∃ p ∈ ps, p.head? = some R := by
  simp [dedupHeads, mem_dd, List.mem_filterMap]

theorem checkFields_ok {e : Entity} {flds : List String}
    (h : ∀ f ∈ flds, f ∈ canonicalNames e) : checkFields e flds = .ok () := by
  induction flds with
  | nil => rfl
  | cons f rest ih =>
    have hf : f ∈ canonicalNames e := h f (List.mem_cons_self _ _)
    simp only [checkFields, if_pos hf]
    exact ih fun g hg => h g (List.mem_cons_of_mem _ hg)

theorem checkFields_error {e : Entity} {flds : List String} {f : String}
    (hf : f ∈ flds) (hbad : f ∉ canonicalNames e) :
    ∃ g, g ∈ flds ∧ g ∉ canonicalNames e ∧
      checkFields e flds = .error (.unknownField g) := by
  induction flds with
  | nil => cases hf
  | cons a rest ih =>
    by_cases ha : a ∈ canonicalNames e
    · have hfr : f ∈ rest := by
        rcases List.mem_cons.mp hf with rfl | h
        · exact absurd ha hbad
        · exact h
      rcases ih hfr with ⟨g, hg1, hg2, hg3⟩
      exact ⟨g, List.mem_cons_of_mem _ hg1, hg2, by
        simp only [checkFields, if_pos ha]; exact hg3⟩
    · exact ⟨a, List.mem_cons_self _ _, ha, by
        simp only [checkFields, if_neg ha]⟩

theorem renderField_fst (embeds : List (String × FieldValue))
    (fd : EntityField) : (renderField embeds fd).1 = fieldName fd := by
  cases fd <;> rfl

theorem assembleFields_names (e : Entity) (flds : List String)
    (embeds : List (String × FieldValue)) :
    (assembleFields e flds embeds).map Prod.fst =
      (canonicalNames e).filter (fun n => decide (flds = [] ∨ n ∈ flds)) := by
  induction e with
  | nil => rfl
  | cons fd rest ih =>
    simp only [assembleFields, canonicalNames] at *
    by_cases h : flds = [] ∨ fieldName fd ∈ flds
    · simp only [List.filterMap_cons, if_pos h, List.map_cons, List.filter_cons,
        decide_eq_true h, renderField_fst]
      exact congrArg _ ih
    · simp only [List.filterMap_cons, if_neg h, List.map_cons, List.filter_cons,
        decide_eq_false h]
      exact ih

theorem assembleFields_nil_nil (e : Entity) :
    assembleFields e [] [] = linkView e := by
  induction e with
  | nil => rfl
  | cons fd rest ih =>
    have hstep : assembleFields (fd :: rest) [] [] =
        renderField [] fd :: assembleFields rest [] [] := by
      simp [assembleFields]
    rw [hstep, ih]
    cases fd <;> rfl

theorem lookupName_not_mem {R : String} {es : List (String × FieldValue)}
    (h : R ∉ es.map Prod.fst) : lookupName R es = none := by
  induction es with
  | nil => rfl
  | cons kv rest ih =>
    simp only [List.map_cons, List.mem_cons] at h
    push_neg at h
    cases kv with
    | mk k v =>
      simp only [lookupName, if_neg (fun hk : k = R => h.1 hk.symm)]
      exact ih h.2

theorem lookupName_map_self {n : String} {g : String → FieldValue}
    {hs : List String} :
    lookupName n (hs.map (fun s => (s, g s))) =
      if n ∈ hs then some (g n) else none := by
  induction hs with
  | nil => rfl
  | cons s rest ih =>
    simp only [List.map_cons, lookupName]
    by_cases hsn : s = n
    · subst hsn
      simp
    · rw [if_neg hsn, ih]
      by_cases hmem : n ∈ rest
      · rw [if_pos hmem, if_pos (List.mem_cons_of_mem _ hmem)]
      · rw [if_neg hmem, if_neg (by
          intro hc
          rcases List.mem_cons.mp hc with h | h
          · exact hsn h.symm
          · exact hmem h)]

theorem lookupName_assemble {e : Entity} {R : String} {fd : EntityField}
    {flds : List String} {embeds : List (String × FieldValue)}
    (hfind : findField e R = some fd) (hrel : isRelField fd = true)
    (hsel : flds = [] ∨ R ∈ flds) :
    lookupName R (assembleFields e flds embeds) =
      some (match lookupName R embeds with
            | some v => v
            | none => .link (fieldRef fd)) := by
  induction e with
  | nil => cases hfind
  | cons fd0 rest ih =>
    by_cases hname : fieldName fd0 = R
    · have : fd0 = fd := by
        have := hfind
        simp only [findField, if_pos hname] at this
        exact Option.some.inj this
      subst this
      have hsel0 : flds = [] ∨ fieldName fd0 ∈ flds := hname ▸ hsel
      have hstep : assembleFields (fd0 :: rest) flds embeds =
          renderField embeds fd0 :: assembleFields rest flds embeds := by
        simp [assembleFields, if_pos hsel0]
      rw [hstep]
      cases fd0 with
      | scalarF n v => simp [isRelField] at hrel
      | relOne n isExp ref c =>
        have hn : n = R := hname
        subst hn
        simp [renderField, lookupName, fieldRef]
      | relMany n isExp ref ks =>
        have hn : n = R := hname
        subst hn
        simp [renderField, lookupName, fieldRef]
    · have hfind' : findField rest R = some fd := by
        have := hfind
        simpa only [findField, if_neg hname] using this
      by_cases hkeep : flds = [] ∨ fieldName fd0 ∈ flds
      · have hstep : assembleFields (fd0 :: rest) flds embeds =
            renderField embeds fd0 :: assembleFields rest flds embeds := by
          simp [assembleFields, if_pos hkeep]
        rw [hstep]
        have hk : (renderField embeds fd0).1 ≠ R := by
          rw [renderField_fst]; exact hname
        cases hRF : renderField embeds fd0 with
        | mk k v =>
          have hkR : k ≠ R := by
            have := hRF ▸ hk
            simpa using this
          simp only [lookupName, if_neg hkR]
          exact ih hfind'
      · have hstep : assembleFields (fd0 :: rest) flds embeds =
            assembleFields rest flds embeds := by
          simp [assembleFields, if_neg hkeep]
        rw [hstep]
        exact ih hfind'

theorem resolveF_eq (n : Nat) (ps : List (List String)) (e : Entity)
    (flds : List String) :
    resolveF n ps e flds =
      levelResolveWith (recAt n) (dedupHeads ps) ps e flds := by
  cases n <;> rfl

theorem resolveF_nil (n : Nat) (e : Entity) :
    resolveF n [] e [] = .ok (assembleFields e [] [], []) := by
  cases n <;> rfl

theorem findField_spec {e : Entity} {nn : String} {fd : EntityField}
    (h : findField e nn = some fd) :
    fd ∈ e ∧ fieldName fd = nn ∧ nn ∈ canonicalNames e := by
  induction e with
  | nil => cases h
  | cons fd0 rest ih =>
    by_cases h0 : fieldName fd0 = nn
    · have : fd0 = fd := by
        have := h
        simp only [findField, if_pos h0] at this
        exact Option.some.inj this
      subst this
      exact ⟨List.mem_cons_self _ _, h0, by
        simp [canonicalNames, h0]⟩
    · have h' : findField rest nn = some fd := by
        have := h
        simpa only [findField, if_neg h0] using this
      rcases ih h' with ⟨h1, h2, h3⟩
      exact ⟨List.mem_cons_of_mem _ h1, h2, by
        simp only [canonicalNames, List.map_cons, List.mem_cons]
        exact Or.inr h3⟩

theorem findField_of_mem_nodup {e : Entity} {fd : EntityField}
    (hnd : (canonicalNames e).Nodup) (hmem : fd ∈ e) :
    findField e (fieldName fd) = some fd := by
  induction e with
  | nil => cases hmem
  | cons fd0 rest ih =>
    rcases List.mem_cons.mp hmem with rfl | hmem'
    · simp [findField]
    · have hne : fieldName fd0 ≠ fieldName fd := by
        intro hcontra
        have : fieldName fd ∈ canonicalNames rest := by
          exact List.mem_map_of_mem _ hmem'
        have hnotin : fieldName fd0 ∉ canonicalNames rest :=
          (List.nodup_cons.mp hnd).1
        exact hnotin (hcontra ▸ this)
      simp only [findField, if_neg hne]
      exact ih (List.nodup_cons.mp hnd).2 hmem'

theorem field_unique_of_nodup {e : Entity} {fd fd' : EntityField}
    (hnd : (canonicalNames e).Nodup) (h1 : fd ∈ e) (h2 : fd' ∈ e)
    (hname : fieldName fd = fieldName fd') : fd = fd' := by
  have e1 := findField_of_mem_nodup hnd h1
  have e2 := findField_of_mem_nodup hnd h2
  rw [hname] at e1
  exact Option.some.inj (e1.symm.trans e2)

theorem length_le_maxPathLen {p : List String} {ps : List (List String)}
    (h : p ∈ ps) : p.length ≤ maxPathLen ps := by
  induction ps with
  | nil => cases h
  | cons q rest ih =>
    rcases List.mem_cons.mp h with rfl | h'
    · exact le_max_left _ _
    · exact le_trans (ih h') (le_max_right _ _)

theorem suffixesFor_eq_nil {s : String} {ps : List (List String)}
    (h : ∀ p ∈ ps, ∀ a t, p = a :: t → t = []) : suffixesFor s ps = [] := by
  induction ps with
  | nil => rfl
  | cons p rest ih =>
    have hrest : suffixesFor s rest = [] :=
      ih fun q hq => h q (List.mem_cons_of_mem _ hq)
    cases p with
    | nil =>
      simp only [suffixesFor, List.filterMap_cons] at *
      exact hrest
    | cons a t =>
      have ht : t = [] := h _ (List.mem_cons_self _ _) a t rfl
      subst ht
      simp only [suffixesFor, List.filterMap_cons] at *
      by_cases has : a = s
      · simp only [if_pos has]
        exact hrest
      · simp only [if_neg has]
        exact hrest

theorem processMany_nil_sufs (n : Nat) (kids : List Entity) :
    processMany (resolveF n) [] kids =
      .ok (kids.map (fun k => assembleFields k [] []), []) := by
  induction kids with
  | nil => rfl
  | cons k rest ih =>
    have hchild : childPaths [] k = [] := rfl
    have hflds : childFlds [] = [] := rfl
    simp only [processMany, hchild, hflds, resolveF_nil, ih, List.map_cons,
      List.nil_append]

theorem processOne_good (n : Nat) {e : Entity} {s : String} {fd : EntityField}
    (hfind : findField e s = some fd) (hrel : isRelField fd = true)
    (hexp : fieldIsExpandable fd = true) :
    processOne (resolveF n) s [] e = .ok (expandValue e s, []) := by
  cases fd with
  | scalarF a b => simp [isRelField] at hrel
  | relOne n0 isExp ref c =>
    have hx : isExp = true := hexp
    subst hx
    have hchild : childPaths [] c = [] := rfl
    have hflds : childFlds [] = [] := rfl
    simp only [processOne, hfind, if_pos, hchild, hflds, resolveF_nil,
      expandValue, if_true, assembleFields_nil_nil]
  | relMany n0 isExp ref ks =>
    have hx : isExp = true := hexp
    subst hx
    simp only [processOne, hfind, processMany_nil_sufs, expandValue, if_true]
    congr 2
    simp [assembleFields_nil_nil]

theorem processHeads_good (n : Nat) {e : Entity} {hs : List String}
    {ps : List (List String)}
    (hsing : ∀ p ∈ ps, ∀ a t, p = a :: t → t = [])
    (hgood : ∀ s ∈ hs, ∃ fd, findField e s = some fd ∧ isRelField fd = true ∧
      fieldIsExpandable fd = true) :
    processHeads (resolveF n) hs ps e =
      .ok (hs.map (fun s => (s, expandValue e s)), hs.map (fun s => [s])) := by
  induction hs with
  | nil => rfl
  | cons s rest ih =>
    rcases hgood s (List.mem_cons_self _ _) with ⟨fd, h1, h2, h3⟩
    have hsuf : suffixesFor s ps = [] := suffixesFor_eq_nil hsing
    have ihr := ih fun g hg => hgood g (List.mem_cons_of_mem _ hg)
    simp only [processHeads, hsuf, processOne_good n h1 h2 h3, ihr,
      List.map_nil, List.map_cons, List.nil_append, List.singleton_append]

theorem processHeads_stops_at (n : Nat) {e : Entity} {hs : List String}
    {ps : List (List String)} {s : String} {err : ResolveError}
    (hsing : ∀ p ∈ ps, ∀ a t, p = a :: t → t = [])
    (hmem : s ∈ hs)
    (hgood : ∀ h ∈ hs, h ≠ s → ∃ fd, findField e h = some fd ∧
      isRelField fd = true ∧ fieldIsExpandable fd = true)
    (herr : processOne (resolveF n) s (suffixesFor s ps) e = .error err) :
    processHeads (resolveF n) hs ps e = .error err := by
  induction hs with
  | nil => cases hmem
  | cons h0 rest ih =>
    by_cases hh : h0 = s
    · subst hh
      simp only [processHeads, herr]
    · rcases hgood h0 (List.mem_cons_self _ _) hh with ⟨fd, h1, h2, h3⟩
      have hsuf : suffixesFor h0 ps = [] := suffixesFor_eq_nil hsing
      have hone := processOne_good n h1 h2 h3
      have hmem' : s ∈ rest := by
        rcases List.mem_cons.mp hmem with rfl | hr
        · exact absurd rfl hh
        · exact hr
      have ihr := ih hmem' fun g hg => hgood g (List.mem_cons_of_mem _ hg)
      simp only [processHeads, hsuf, hone, ihr]

theorem processHeads_map
    {rec : List (List String) → Entity → List String →
      Except ResolveError (ResourceNode × FetchLog)}
    {hs : List String} {ps : List (List String)} {e : Entity}
    {es : List (String × FieldValue)} {lg : FetchLog}
    (h : processHeads rec hs ps e = .ok (es, lg)) :
    es = hs.map (fun s => (s, headValue rec ps e s)) := by
  induction hs generalizing es lg with
  | nil =>
    simp only [processHeads] at h
    cases h
    rfl
  | cons s rest ih =>
    simp only [processHeads] at h
    cases hpo : processOne rec s (suffixesFor s ps) e with
    | error err => rw [hpo] at h; cases h
    | ok vl =>
      rw [hpo] at h
      cases hph : processHeads rec rest ps e with
      | error err => rw [hph] at h; cases h
      | ok vs' =>
        rw [hph] at h
        obtain ⟨v, lg1⟩ := vl
        obtain ⟨vs, lgs⟩ := vs'
        cases h
        simp only [List.map_cons, List.cons.injEq]
        constructor
        · simp [headValue, hpo]
        · exact ih hph

theorem levelResolveWith_ok_shape
    {rec : List (List String) → Entity → List String →
      Except ResolveError (ResourceNode × FetchLog)}
    {hs : List String} {ps : List (List String)} {e : Entity}
    {flds : List String} {nd : ResourceNode} {lg : FetchLog}
    (h : levelResolveWith rec hs ps e flds = .ok (nd, lg)) :
    ∃ embeds, processHeads rec hs ps e = .ok (embeds, lg) ∧
      nd = assembleFields e flds embeds ∧ checkFields e flds = .ok () := by
  unfold levelResolveWith at h
  cases hc : checkFields e flds with
  | error err => rw [hc] at h; cases h
  | ok u =>
    rw [hc] at h
    cases hp : processHeads rec hs ps e with
    | error err => rw [hp] at h; cases h
    | ok el =>
      rw [hp] at h
      obtain ⟨embeds, lg'⟩ := el
      cases h
      cases u
      exact ⟨embeds, rfl, rfl, by simp [hc]⟩

theorem levelResolveWith_check_error
    {rec : List (List String) → Entity → List String →
      Except ResolveError (ResourceNode × FetchLog)}
    {hs : List String} {ps : List (List String)} {e : Entity}
    {flds : List String} {err : ResolveError}
    (h : checkFields e flds = .error err) :
    levelResolveWith rec hs ps e flds = .error err := by
  simp [levelResolveWith, h]

theorem levelResolveWith_heads_error
    {rec : List (List String) → Entity → List String →
      Except ResolveError (ResourceNode × FetchLog)}
    {hs : List String} {ps : List (List String)} {e : Entity}
    {flds : List String} {err : ResolveError}
    (hok : checkFields e flds = .ok ())
    (h : processHeads rec hs ps e = .error err) :
    levelResolveWith rec hs ps e flds = .error err := by
  simp [levelResolveWith, hok, h]

theorem levelResolveWith_ok_build
    {rec : List (List String) → Entity → List String →
      Except ResolveError (ResourceNode × FetchLog)}
    {hs : List String} {ps : List (List String)} {e : Entity}
    {flds : List String} {embeds : List (String × FieldValue)}
    {lg : FetchLog}
    (hc : checkFields e flds = .ok ())
    (hp : processHeads rec hs ps e = .ok (embeds, lg)) :
    levelResolveWith rec hs ps e flds =
      .ok (assembleFields e flds embeds, lg) := by
  unfold levelResolveWith
  rw [hc, hp]

theorem assembleFields_cons_pos {fd : EntityField} {rest : Entity}
    {flds : List String} {embeds : List (String × FieldValue)}
    (h : flds = [] ∨ fieldName fd ∈ flds) :
    assembleFields (fd :: rest) flds embeds =
      renderField embeds fd :: assembleFields rest flds embeds := by
  unfold assembleFields
  rw [List.filterMap_cons, if_pos h]

theorem assembleFields_cons_neg {fd : EntityField} {rest : Entity}
    {flds : List String} {embeds : List (String × FieldValue)}
    (h : ¬(flds = [] ∨ fieldName fd ∈ flds)) :
    assembleFields (fd :: rest) flds embeds =
      assembleFields rest flds embeds := by
  unfold assembleFields
  rw [List.filterMap_cons, if_neg h]

theorem assembleFields_nil_flds (e : Entity)
    (embeds : List (String × FieldValue)) :
    assembleFields e [] embeds = e.map (renderField embeds) := by
  induction e with
  | nil => rfl
  | cons fd rest ih =>
    rw [assembleFields_cons_pos (Or.inl rfl), List.map_cons]
    exact congrArg _ ih

theorem assembleFields_eq_nil {c : Entity} {flds : List String}
    {embeds : List (String × FieldValue)}
    (hne : flds ≠ []) (h : ∀ fd ∈ c, fieldName fd ∉ flds) :
    assembleFields c flds embeds = [] := by
  induction c with
  | nil => rfl
  | cons fd rest ih =>
    have hcond : ¬(flds = [] ∨ fieldName fd ∈ flds) := by
      rintro (rfl | hmem)
      · exact hne rfl
      · exact h fd (List.mem_cons_self _ _) hmem
    simp only [assembleFields, List.filterMap_cons, if_neg hcond]
    exact ih fun g hg => h g (List.mem_cons_of_mem _ hg)

theorem assembleFields_single_scalar {c : Entity} {x v : String}
    (hnd : (canonicalNames c).Nodup)
    (hx : findField c x = some (.scalarF x v)) :
    assembleFields c [x] [] = [(x, .scalar v)] := by
  induction c with
  | nil => cases hx
  | cons fd rest ih =>
    by_cases h0 : fieldName fd = x
    · have : fd = EntityField.scalarF x v := by
        have := hx
        simp only [findField, if_pos h0] at this
        exact Option.some.inj this
      subst this
      have hcond : ([x] : List String) = [] ∨
          fieldName (EntityField.scalarF x v) ∈ [x] := by
        right
        simp [fieldName]
      rw [assembleFields_cons_pos hcond]
      have hrest : assembleFields rest [x] [] = [] := by
        apply assembleFields_eq_nil (by simp)
        intro g hg hgx
        have hgx' : fieldName g = x := by simpa using hgx
        have hnotin : fieldName (EntityField.scalarF x v) ∉
            canonicalNames rest := (List.nodup_cons.mp hnd).1
        have : fieldName g ∈ canonicalNames rest := List.mem_map_of_mem _ hg
        rw [hgx'] at this
        exact hnotin (by simpa [fieldName] using this)
      rw [hrest]
      rfl
    · have hx' : findField rest x = some (.scalarF x v) := by
        have := hx
        simpa only [findField, if_neg h0] using this
      have hcond : ¬(([x] : List String) = [] ∨ fieldName fd ∈ [x]) := by
        rintro (habs | hmem)
        · cases habs
        · exact h0 (by simpa using hmem)
      rw [assembleFields_cons_neg hcond]
      exact ih (List.nodup_cons.mp hnd).2 hx'

theorem processMany_log_ne
    {rec : List (List String) → Entity → List String →
      Except ResolveError (ResourceNode × FetchLog)}
    (hrec : ∀ ps' e' flds' nd' lg', rec ps' e' flds' = .ok (nd', lg') →
      ∀ q ∈ lg', q ≠ ([] : List String))
    {sufs : List (List String)} {kids : List Entity}
    {nds : List ResourceNode} {lg : FetchLog}
    (h : processMany rec sufs kids = .ok (nds, lg)) :
    ∀ q ∈ lg, q ≠ ([] : List String) := by
  induction kids generalizing nds lg with
  | nil =>
    simp only [processMany] at h
    cases h
    intro q hq
    cases hq
  | cons k rest ih =>
    simp only [processMany] at h
    cases hr : rec (childPaths sufs k) k (childFlds sufs) with
    | error err => rw [hr] at h; cases h
    | ok ndl =>
      rw [hr] at h
      cases hm : processMany rec sufs rest with
      | error err => rw [hm] at h; cases h
      | ok nl =>
        rw [hm] at h
        obtain ⟨nd, lg1⟩ := ndl
        obtain ⟨nds', lgs⟩ := nl
        cases h
        intro q hq
        rcases List.mem_append.mp hq with h1 | h2
        · exact hrec _ _ _ _ _ hr q h1
        · exact ih hm q h2

theorem processOne_log_ne
    {rec : List (List String) → Entity → List String →
      Except ResolveError (ResourceNode × FetchLog)}
    (hrec : ∀ ps' e' flds' nd' lg', rec ps' e' flds' = .ok (nd', lg') →
      ∀ q ∈ lg', q ≠ ([] : List String))
    {s : String} {sufs : List (List String)} {e : Entity}
    {v : FieldValue} {lg : FetchLog}
    (h : processOne rec s sufs e = .ok (v, lg)) :
    ∀ q ∈ lg, q ≠ ([] : List String) := by
  unfold processOne at h
  cases hf : findField e s with
  | none => rw [hf] at h; cases h
  | some fd =>
    rw [hf] at h
    cases fd with
    | scalarF a b => cases h
    | relOne n0 isExp ref c =>
      cases isExp with
      | false => cases h
      | true =>
        simp only [if_true] at h
        cases hr : rec (childPaths sufs c) c (childFlds sufs) with
        | error err => rw [hr] at h; cases h
        | ok ndl =>
          rw [hr] at h
          obtain ⟨nd, lg1⟩ := ndl
          cases h
          exact hrec _ _ _ _ _ hr
    | relMany n0 isExp ref ks =>
      cases isExp with
      | false => cases h
      | true =>
        simp only [if_true] at h
        cases hm : processMany rec sufs ks with
        | error err => rw [hm] at h; cases h
        | ok nl =>
          rw [hm] at h
          obtain ⟨nds, lgs⟩ := nl
          cases h
          exact processMany_log_ne hrec hm

theorem processHeads_log
    {rec : List (List String) → Entity → List String →
      Except ResolveError (ResourceNode × FetchLog)}
    (hrec : ∀ ps' e' flds' nd' lg', rec ps' e' flds' = .ok (nd', lg') →
      ∀ q ∈ lg', q ≠ ([] : List String))
    {hs : List String} {ps : List (List String)} {e : Entity}
    {es : List (String × FieldValue)} {lg : FetchLog}
    (h : processHeads rec hs ps e = .ok (es, lg)) :
    (∀ q ∈ lg, q ≠ ([] : List String)) ∧
    ∀ R, lg.count [R] = hs.count R := by
  induction hs generalizing es lg with
  | nil =>
    simp only [processHeads] at h
    cases h
    exact ⟨fun q hq => absurd hq (List.not_mem_nil q), fun R => rfl⟩
  | cons s rest ih =>
    simp only [processHeads] at h
    cases hpo : processOne rec s (suffixesFor s ps) e with
    | error err => rw [hpo] at h; cases h
    | ok vl =>
      rw [hpo] at h
      cases hph : processHeads rec rest ps e with
      | error err => rw [hph] at h; cases h
      | ok vs' =>
        rw [hph] at h
        obtain ⟨v, lg1⟩ := vl
        obtain ⟨vs, lgs⟩ := vs'
        cases h
        have hlg1 := processOne_log_ne hrec hpo
        rcases ih hph with ⟨hne, hcount⟩
        constructor
        · intro q hq
          rcases List.mem_append.mp hq with h1 | h2
          · rcases List.mem_cons.mp h1 with rfl | hmap
            · simp
            · rcases List.mem_map.mp hmap with ⟨q', _, rfl⟩
              simp
          · exact hne q h2
        · intro R
          have hzero : [R] ∉ lg1.map (fun q => s :: q) := by
            intro hmem
            rcases List.mem_map.mp hmem with ⟨q', hq', heq⟩
            cases q' with
            | nil => exact hlg1 [] hq' rfl
            | cons a t => cases heq
          simp only [List.count_append, List.count_cons, hcount R,
            List.count_eq_zero.mpr hzero]
          by_cases hsR : s = R
          · subst hsR
            simp
            omega
          · have h1 : (([s] : List String) == [R]) = false := by
              simp [hsR]
            have h2 : (s == R) = false := by
              simp [hsR]
            rw [h1, h2]
            simp

theorem count_nodup_mem {l : List String} (hl : l.Nodup) (R : String) :
    l.count R = if R ∈ l then 1 else 0 := by
  by_cases h : R ∈ l
  · rw [if_pos h]
    exact List.count_eq_one_of_mem hl h
  · rw [if_neg h]
    exact List.count_eq_zero_of_not_mem h

theorem resolveF_log (n : Nat) :
    ∀ (ps : List (List String)) (e : Entity) (flds : List String)
      (nd : ResourceNode) (lg : FetchLog),
      resolveF n ps e flds = .ok (nd, lg) →
      (∀ q ∈ lg, q ≠ ([] : List String)) ∧
      ∀ R, lg.count [R] = if R ∈ dedupHeads ps then 1 else 0 := by
  induction n with
  | zero =>
    intro ps e flds nd lg h
    rw [resolveF_eq] at h
    rcases levelResolveWith_ok_shape h with ⟨embeds, hph, hnd, hcf⟩
    have hrec : ∀ ps' e' flds' nd' lg',
        recAt 0 ps' e' flds' = .ok (nd', lg') →
        ∀ q ∈ lg', q ≠ ([] : List String) := by
      intro ps' e' flds' nd' lg' h'
      cases h'
    rcases processHeads_log hrec hph with ⟨h1, h2⟩
    refine ⟨h1, fun R => ?_⟩
    have hdd : (dedupHeads ps).Nodup := dd_nodup _
    exact (h2 R).trans (count_nodup_mem hdd R)
  | succ n ihn =>
    intro ps e flds nd lg h
    rw [resolveF_eq] at h
    rcases levelResolveWith_ok_shape h with ⟨embeds, hph, hnd, hcf⟩
    have hrec : ∀ ps' e' flds' nd' lg',
        recAt (n + 1) ps' e' flds' = .ok (nd', lg') →
        ∀ q ∈ lg', q ≠ ([] : List String) := by
      intro ps' e' flds' nd' lg' h'
      exact (ihn ps' e' flds' nd' lg' h').1
    rcases processHeads_log hrec hph with ⟨h1, h2⟩
    refine ⟨h1, fun R => ?_⟩
    have hdd : (dedupHeads ps).Nodup := dd_nodup _
    exact (h2 R).trans (count_nodup_mem hdd R)

theorem lookupName_perm {es1 es2 : List (String × FieldValue)}
    (hperm : es1.Perm es2) (hnd : (es1.map Prod.fst).Nodup) (n : String) :
    lookupName n es1 = lookupName n es2 := by
  induction hperm with
  | nil => rfl
  | cons x h ih =>
    cases x with
    | mk k v =>
      simp only [lookupName]
      by_cases hk : k = n
      · rw [if_pos hk, if_pos hk]
      · rw [if_neg hk, if_neg hk]
        exact ih (by
          simp only [List.map_cons, List.nodup_cons] at hnd
          exact hnd.2)
  | swap x y l =>
    cases x with
    | mk kx vx =>
      cases y with
      | mk ky vy =>
        have hne : ky ≠ kx := by
          simp only [List.map_cons, List.nodup_cons, List.mem_cons] at hnd
          exact fun hc => hnd.1 (Or.inl hc)
        simp only [lookupName]
        by_cases h1 : ky = n
        · have h2 : kx ≠ n := fun hc => hne (h1.trans hc.symm)
          rw [if_pos h1, if_neg h2, if_pos h1]
        · by_cases h2 : kx = n
          · rw [if_neg h1, if_pos h2, if_pos h2]
          · rw [if_neg h1, if_neg h2, if_neg h2, if_neg h1]
  | trans h1 h2 ih1 ih2 =>
    have hnd2 := ((List.Perm.map Prod.fst h1).nodup_iff).mp hnd
    rw [ih1 hnd, ih2 hnd2]

theorem assembleFields_congr {e : Entity} {flds : List String}
    {es1 es2 : List (String × FieldValue)}
    (h : ∀ n, lookupName n es1 = lookupName n es2) :
    assembleFields e flds es1 = assembleFields e flds es2 := by
  induction e with
  | nil => rfl
  | cons fd rest ih =>
    by_cases hc : flds = [] ∨ fieldName fd ∈ flds
    · rw [assembleFields_cons_pos hc, assembleFields_cons_pos hc, ih]
      congr 1
      cases fd <;> simp [renderField, h]
    · rw [assembleFields_cons_neg hc, assembleFields_cons_neg hc]
      exact ih

theorem expandableNames_sublist (e : Entity) :
    List.Sublist (expandableNames e) (canonicalNames e) := by
  induction e with
  | nil => exact List.Sublist.refl _
  | cons fd rest ih =>
    unfold expandableNames canonicalNames at *
    rw [List.filterMap_cons, List.map_cons]
    by_cases h : (isRelField fd && fieldIsExpandable fd) = true
    · rw [if_pos h]
      exact List.Sublist.cons₂ _ ih
    · rw [if_neg h]
      exact List.Sublist.cons _ ih

theorem mem_expandableNames {e : Entity} {n : String} :
    n ∈ expandableNames e ↔ ∃ fd, fd ∈ e ∧ fieldName fd = n ∧
      isRelField fd = true ∧ fieldIsExpandable fd = true := by
  unfold expandableNames
  rw [List.mem_filterMap]
  constructor
  · rintro ⟨fd, hfd, hsome⟩
    by_cases h : (isRelField fd && fieldIsExpandable fd) = true
    · rw [if_pos h] at hsome
      rcases Bool.and_eq_true_iff.mp h with ⟨h1, h2⟩
      exact ⟨fd, hfd, Option.some.inj hsome, h1, h2⟩
    · rw [if_neg h] at hsome
      cases hsome
  · rintro ⟨fd, hfd, rfl, h1, h2⟩
    exact ⟨fd, hfd, by rw [if_pos (by rw [h1, h2]; rfl)]⟩

theorem filterMap_head_map_singleton (l : List String) :
    (l.map (fun n => [n])).filterMap List.head? = l := by
  induction l with
  | nil => rfl
  | cons x xs ih =>
    simp only [List.map_cons, List.filterMap_cons, List.head?]
    rw [ih]

theorem map_renderField_expandAll (e : Entity)
    (hnd : (canonicalNames e).Nodup) :
    e.map (renderField
      ((expandableNames e).map (fun s => (s, expandValue e s)))) =
      expandAllView e := by
  unfold expandAllView
  apply List.map_congr_left
  intro fd hmem
  cases fd with
  | scalarF n v => rfl
  | relOne n isExp ref c =>
    simp only [renderField, lookupName_map_self]
    cases isExp with
    | true =>
      have hmemN : n ∈ expandableNames e :=
        mem_expandableNames.mpr ⟨.relOne n true ref c, hmem, rfl, rfl, rfl⟩
      rw [if_pos hmemN]
      have hfind : findField e n = some (.relOne n true ref c) := by
        have := findField_of_mem_nodup hnd hmem
        simpa [fieldName] using this
      simp [expandValue, hfind]
    | false =>
      have hnot : n ∉ expandableNames e := by
        intro hc
        rcases mem_expandableNames.mp hc with ⟨fd', hfd', hname, hrel', hexp'⟩
        have heq : fd' = .relOne n false ref c :=
          field_unique_of_nodup hnd hfd' hmem hname
        rw [heq] at hexp'
        simp [fieldIsExpandable] at hexp'
      rw [if_neg hnot]
      simp
  | relMany n isExp ref ks =>
    simp only [renderField, lookupName_map_self]
    cases isExp with
    | true =>
      have hmemN : n ∈ expandableNames e :=
        mem_expandableNames.mpr ⟨.relMany n true ref ks, hmem, rfl, rfl, rfl⟩
      rw [if_pos hmemN]
      have hfind : findField e n = some (.relMany n true ref ks) := by
        have := findField_of_mem_nodup hnd hmem
        simpa [fieldName] using this
      simp [expandValue, hfind]
    | false =>
      have hnot : n ∉ expandableNames e := by
        intro hc
        rcases mem_expandableNames.mp hc with ⟨fd', hfd', hname, hrel', hexp'⟩
        have heq : fd' = .relMany n false ref ks :=
          field_unique_of_nodup hnd hfd' hmem hname
        rw [heq] at hexp'
        simp [fieldIsExpandable] at hexp'
      rw [if_neg hnot]
      simp

theorem processOne_unknown
    {rec : List (List String) → Entity → List String →
      Except ResolveError (ResourceNode × FetchLog)}
    {s : String} {sufs : List (List String)} {e : Entity}
    (hfind : findField e s = none) :
    processOne rec s sufs e = .error (.unknownRelation s) := by
  unfold processOne
  rw [hfind]

theorem processOne_not_expandable
    {rec : List (List String) → Entity → List String →
      Except ResolveError (ResourceNode × FetchLog)}
    {s : String} {sufs : List (List String)} {e : Entity} {fd : EntityField}
    (hfind : findField e s = some fd) (hrel : isRelField fd = true)
    (hexp : fieldIsExpandable fd = false) :
    processOne rec s sufs e = .error (.notExpandable s) := by
  cases fd with
  | scalarF a b => simp [isRelField] at hrel
  | relOne n0 isExp ref c =>
    have hx : isExp = false := hexp
    subst hx
    unfold processOne
    rw [hfind]
    rfl
  | relMany n0 isExp ref ks =>
    have hx : isExp = false := hexp
    subst hx
    unfold processOne
    rw [hfind]
    rfl

/-- C1: for every entity and every FieldSpec naming only valid fields,
`resolve` returns a root node whose field set is exactly the FieldSpec in
the entity's canonical field order (not the request order), no field
outside the FieldSpec appears, and an empty FieldSpec leaves all fields
present. -/
theorem resolve_fieldspec_exact (e : Entity) (ps : List (List String))
    (flds : List String) (nd : ResourceNode) (lg : FetchLog)
    (h : resolve e (.explicitPaths ps) flds = .ok (nd, lg)) :
    nd.map Prod.fst =
      (canonicalNames e).filter (fun n => decide (flds = [] ∨ n ∈ flds)) ∧
    (flds = [] → nd.map Prod.fst = canonicalNames e) ∧
    (flds ≠ [] → (∀ f ∈ flds, f ∈ canonicalNames e) →
      ∀ f, f ∈ nd.map Prod.fst ↔ f ∈ flds) := by
  have h' : resolveF (maxPathLen ps) ps e flds = .ok (nd, lg) := h
  rw [resolveF_eq] at h'
  rcases levelResolveWith_ok_shape h' with ⟨embeds, hph, hndeq, hcf⟩
  subst hndeq
  refine ⟨assembleFields_names e flds embeds, ?_, ?_⟩
  · intro hfe
    subst hfe
    rw [assembleFields_names]
    simp
  · intro hne hval f
    rw [assembleFields_names, List.mem_filter]
    constructor
    · rintro ⟨hmem, hdec⟩
      rcases of_decide_eq_true hdec with rfl | hf
      · exact absurd rfl hne
      · exact hf
    · intro hf
      exact ⟨hval f hf, decide_eq_true (Or.inr hf)⟩

/-- C2: every invalid directive fails with a typed error naming the
offending name and is never silently dropped: a FieldSpec naming an
unknown field yields `unknownField` naming an offending field; an
expansion path whose first segment names nothing known yields
`unknownRelation` naming it; and one naming a relation that is not
expandable yields `notExpandable` naming it (the surrounding directives
being otherwise well-formed single-segment paths). -/
theorem resolve_invalid_directive_errors :
    (∀ (e : Entity) (ps : List (List String)) (flds : List String)
        (f : String), f ∈ flds → f ∉ canonicalNames e →
      ∃ g, g ∈ flds ∧ g ∉ canonicalNames e ∧
        resolve e (.explicitPaths ps) flds = .error (.unknownField g)) ∧
    (∀ (e : Entity) (ps : List (List String)) (flds : List String)
        (s : String),
      (∀ f ∈ flds, f ∈ canonicalNames e) →
      (∀ p ∈ ps, ∃ h1, p = [h1]) →
      (∀ p ∈ ps, ∀ h1, p = [h1] → h1 ≠ s →
        ∃ fd, findField e h1 = some fd ∧ isRelField fd = true ∧
          fieldIsExpandable fd = true) →
      [s] ∈ ps → findField e s = none →
      resolve e (.explicitPaths ps) flds = .error (.unknownRelation s)) ∧
    (∀ (e : Entity) (ps : List (List String)) (flds : List String)
        (s : String) (fd : EntityField),
      (∀ f ∈ flds, f ∈ canonicalNames e) →
      (∀ p ∈ ps, ∃ h1, p = [h1]) →
      (∀ p ∈ ps, ∀ h1, p = [h1] → h1 ≠ s →
        ∃ fd', findField e h1 = some fd' ∧ isRelField fd' = true ∧
          fieldIsExpandable fd' = true) →
      [s] ∈ ps → findField e s = some fd → isRelField fd = true →
      fieldIsExpandable fd = false →
      resolve e (.explicitPaths ps) flds = .error (.notExpandable s)) := by
  have hsingle : ∀ (ps : List (List String)),
      (∀ p ∈ ps, ∃ h1, p = [h1]) →
      ∀ p ∈ ps, ∀ a t, p = a :: t → t = [] := by
    intro ps hp p hmem a t heq
    rcases hp p hmem with ⟨h1, rfl⟩
    cases heq
    rfl
  have hgoodheads : ∀ (e : Entity) (ps : List (List String)) (s : String),
      (∀ p ∈ ps, ∃ h1, p = [h1]) →
      (∀ p ∈ ps, ∀ h1, p = [h1] → h1 ≠ s →
        ∃ fd, findField e h1 = some fd ∧ isRelField fd = true ∧
          fieldIsExpandable fd = true) →
      ∀ h0 ∈ dedupHeads ps, h0 ≠ s →
        ∃ fd, findField e h0 = some fd ∧ isRelField fd = true ∧
          fieldIsExpandable fd = true := by
    intro e ps s hp hg h0 hmem hne
    rcases mem_dedupHeads.mp hmem with ⟨p, hpmem, hhead⟩
    rcases hp p hpmem with ⟨h1, rfl⟩
    have : h1 = h0 := by
      simpa using hhead
    subst this
    exact hg _ hpmem h1 rfl hne
  refine ⟨?_, ?_, ?_⟩
  · intro e ps flds f hf hbad
    rcases checkFields_error hf hbad with ⟨g, hg1, hg2, hg3⟩
    refine ⟨g, hg1, hg2, ?_⟩
    show resolveF (maxPathLen ps) ps e flds = _
    rw [resolveF_eq]
    exact levelResolveWith_check_error hg3
  · intro e ps flds s hval hp hg hmem hfind
    have hM : 1 ≤ maxPathLen ps := length_le_maxPathLen hmem
    show resolveF (maxPathLen ps) ps e flds = _
    rcases Nat.exists_eq_add_of_le hM with ⟨m, hm⟩
    rw [hm]
    have hstep : resolveF (1 + m) ps e flds =
        levelResolveWith (resolveF m) (dedupHeads ps) ps e flds := by
      rw [Nat.add_comm]
      rfl
    rw [hstep]
    apply levelResolveWith_heads_error (checkFields_ok hval)
    apply processHeads_stops_at m (hsingle ps hp)
      (mem_dedupHeads.mpr ⟨[s], hmem, rfl⟩) (hgoodheads e ps s hp hg)
    exact processOne_unknown hfind
  · intro e ps flds s fd hval hp hg hmem hfind hrel hexp
    have hM : 1 ≤ maxPathLen ps := length_le_maxPathLen hmem
    show resolveF (maxPathLen ps) ps e flds = _
    rcases Nat.exists_eq_add_of_le hM with ⟨m, hm⟩
    rw [hm]
    have hstep : resolveF (1 + m) ps e flds =
        levelResolveWith (resolveF m) (dedupHeads ps) ps e flds := by
      rw [Nat.add_comm]
      rfl
    rw [hstep]
    apply levelResolveWith_heads_error (checkFields_ok hval)
    apply processHeads_stops_at m (hsingle ps hp)
      (mem_dedupHeads.mpr ⟨[s], hmem, rfl⟩) (hgoodheads e ps s hp hg)
    exact processOne_not_expandable hfind hrel hexp

/-- C3: a relation of the entity that is the first segment of no
expansion path renders as a `link` (its opaque reference), never as an
embedded node, even when an active FieldSpec selects it by name. -/
theorem resolve_unexpanded_relation_link (e : Entity)
    (ps : List (List String)) (flds : List String) (R : String)
    (fd : EntityField) (nd : ResourceNode) (lg : FetchLog)
    (hfind : findField e R = some fd) (hrel : isRelField fd = true)
    (hnop : ∀ p ∈ ps, p.head? ≠ some R)
    (hsel : flds = [] ∨ R ∈ flds)
    (h : resolve e (.explicitPaths ps) flds = .ok (nd, lg)) :
    lookupName R nd = some (.link (fieldRef fd)) := by
  have h' : resolveF (maxPathLen ps) ps e flds = .ok (nd, lg) := h
  rw [resolveF_eq] at h'
  rcases levelResolveWith_ok_shape h' with ⟨embeds, hph, hndeq, hcf⟩
  subst hndeq
  have hes := processHeads_map hph
  have hkeys : R ∉ embeds.map Prod.fst := by
    rw [hes, List.map_map]
    intro hc
    have hmem : R ∈ dedupHeads ps := by
      simpa using hc
    rcases mem_dedupHeads.mp hmem with ⟨p, hp, hhead⟩
    exact hnop p hp hhead
  have hnone := lookupName_not_mem hkeys
  rw [lookupName_assemble hfind hrel hsel, hnone]

/-- C4: within a single resolve call, a relation is fetched exactly once
when any expansion path targets it as its first segment — however many
distinct paths share that first segment — and zero times when no path
does (root-level fetches are the singleton entries of the fetch log). -/
theorem resolve_fetch_once_per_relation (e : Entity)
    (ps : List (List String)) (flds : List String) (R : String)
    (nd : ResourceNode) (lg : FetchLog)
    (h : resolve e (.explicitPaths ps) flds = .ok (nd, lg)) :
    lg.count [R] = if ∃ p ∈ ps, p.head? = some R then 1 else 0 := by
  have h' : resolveF (maxPathLen ps) ps e flds = .ok (nd, lg) := h
  have hl := (resolveF_log (maxPathLen ps) ps e flds nd lg h').2 R
  rw [hl]
  by_cases hmem : R ∈ dedupHeads ps
  · rw [if_pos hmem, if_pos (mem_dedupHeads.mp hmem)]
  · rw [if_neg hmem, if_neg (fun hc => hmem (mem_dedupHeads.mpr hc))]

/-- C5: for a nested expansion path `R.x` over a cardinality-One
expandable relation `R` whose fetched node has scalar field `x`, resolve
embeds `R` and restricts the embedded node's fields to exactly `{x}`,
with one fetch of `R`, while the root's own field set remains governed
solely by the root FieldSpec (which is not propagated into the
sub-resource). -/
theorem resolve_nested_path_restricts_embedded (e : Entity)
    (R x ref : String) (c : Entity) (v : String) (flds : List String)
    (hfind : findField e R = some (.relOne R true ref c))
    (hx : findField c x = some (.scalarF x v))
    (hndc : (canonicalNames c).Nodup)
    (hsel : flds = [] ∨ R ∈ flds)
    (hval : ∀ f ∈ flds, f ∈ canonicalNames e) :
    resolve e (.explicitPaths [[R, x]]) flds =
      .ok (assembleFields e flds [(R, .embeddedSingle [(x, .scalar v)])],
        [[R]]) ∧
    lookupName R (assembleFields e flds
      [(R, .embeddedSingle [(x, .scalar v)])]) =
      some (.embeddedSingle [(x, .scalar v)]) ∧
    (assembleFields e flds
      [(R, .embeddedSingle [(x, .scalar v)])]).map Prod.fst =
      (canonicalNames e).filter (fun n => decide (flds = [] ∨ n ∈ flds)) := by
  have hchk : checkFields e flds = .ok () := checkFields_ok hval
  have hmemx : x ∈ canonicalNames c := (findField_spec hx).2.2
  have hchkc : checkFields c [x] = .ok () := by
    apply checkFields_ok
    intro f hf
    rcases List.mem_singleton.mp hf with rfl
    exact hmemx
  have hinner : resolveF 1 [] c [x] = .ok ([(x, FieldValue.scalar v)], []) := by
    have h1 : resolveF 1 [] c [x] = .ok (assembleFields c [x] [], []) := by
      rw [resolveF_eq]
      exact levelResolveWith_ok_build hchkc rfl
    rw [h1, assembleFields_single_scalar hndc hx]
  have hsuf : suffixesFor R [[R, x]] = [[x]] := by
    simp [suffixesFor]
  have hcp : childPaths [[x]] c = [] := by
    simp [childPaths, isScalarLeafPath, hx]
  have hcflds : childFlds [[x]] = [x] := rfl
  have hponeR : processOne (resolveF 1) R (suffixesFor R [[R, x]]) e =
      .ok (.embeddedSingle [(x, FieldValue.scalar v)], []) := by
    rw [hsuf]
    simp only [processOne, hfind, if_true]
    rw [hcp, hcflds, hinner]
  have hph : processHeads (resolveF 1) [R] [[R, x]] e =
      .ok ([(R, .embeddedSingle [(x, FieldValue.scalar v)])], [[R]]) := by
    unfold processHeads
    rw [hponeR]
    rfl
  refine ⟨?_, ?_, assembleFields_names e flds _⟩
  · show resolveF 2 [[R, x]] e flds = _
    rw [resolveF_eq]
    have hdd2 : dedupHeads [[R, x]] = [R] := rfl
    rw [hdd2]
    have hph' : processHeads (recAt 2) [R] [[R, x]] e =
        .ok ([(R, .embeddedSingle [(x, FieldValue.scalar v)])], [[R]]) := hph
    exact levelResolveWith_ok_build hchk hph'
  · rw [lookupName_assemble hfind rfl hsel]
    simp [lookupName]

/-- C6: with the distinguished expand-all ExpansionSpec, resolve embeds
every relation declared expandable on the entity exactly one level deep
(the embedded nodes keep all their fields and their own relations remain
links), leaves non-expandable relations as links, and fetches each
expandable relation once. -/
theorem resolve_expand_all_one_level (e : Entity)
    (hnd : (canonicalNames e).Nodup) :
    resolve e .expandAll [] =
      .ok (expandAllView e, (expandableNames e).map (fun n => [n])) := by
  show resolveF 1 ((expandableNames e).map (fun n => [n])) e [] = _
  rw [resolveF_eq]
  have hdd : dedupHeads ((expandableNames e).map (fun n => [n])) =
      expandableNames e := by
    unfold dedupHeads
    rw [filterMap_head_map_singleton]
    exact dd_eq_self_of_nodup
      (List.Nodup.sublist (expandableNames_sublist e) hnd)
  rw [hdd]
  have hsing : ∀ p ∈ (expandableNames e).map (fun n => [n]),
      ∀ a t, p = a :: t → t = [] := by
    intro p hp a t heq
    rcases List.mem_map.mp hp with ⟨n, _, rfl⟩
    cases heq
    rfl
  have hgood : ∀ s ∈ expandableNames e,
      ∃ fd, findField e s = some fd ∧ isRelField fd = true ∧
        fieldIsExpandable fd = true := by
    intro s hs
    rcases mem_expandableNames.mp hs with ⟨fd, hfd, rfl, h1, h2⟩
    exact ⟨fd, findField_of_mem_nodup hnd hfd, h1, h2⟩
  have hph := processHeads_good 0 hsing hgood
  have hph' : processHeads (recAt 1) (expandableNames e)
      ((expandableNames e).map (fun n => [n])) e =
      .ok ((expandableNames e).map (fun s => (s, expandValue e s)),
        (expandableNames e).map (fun s => [s])) := hph
  rw [levelResolveWith_ok_build
    (show checkFields e [] = Except.ok () from rfl) hph']
  rw [assembleFields_nil_flds, map_renderField_expandAll e hnd]

/-- C7: the output tree is deterministic with respect to fetch completion
order — processing the root relations in any permuted completion order
yields the same tree as the declared order — and for a cardinality-Many
relation the embedded sequence corresponds index by index, in fetch
order, to the fetched nodes (the resolver never re-sorts). -/
theorem resolve_deterministic_order :
    (∀ (e : Entity) (ps : List (List String)) (flds : List String)
        (order : List String) (nd₁ nd₂ : ResourceNode) (lg₁ lg₂ : FetchLog),
      order.Perm (dedupHeads ps) →
      resolveSched order ps e flds = .ok (nd₁, lg₁) →
      resolve e (.explicitPaths ps) flds = .ok (nd₂, lg₂) →
      nd₁ = nd₂) ∧
    (∀ (rec : List (List String) → Entity → List String →
        Except ResolveError (ResourceNode × FetchLog))
        (sufs : List (List String)) (kids : List Entity)
        (nds : List ResourceNode) (lg : FetchLog),
      processMany rec sufs kids = .ok (nds, lg) →
      nds.length = kids.length ∧
      ∀ (i : Nat) (h1 : i < kids.length) (h2 : i < nds.length),
        ∃ lgi, rec (childPaths sufs (kids.get ⟨i, h1⟩)) (kids.get ⟨i, h1⟩)
          (childFlds sufs) = .ok (nds.get ⟨i, h2⟩, lgi)) := by
  constructor
  · intro e ps flds order nd₁ nd₂ lg₁ lg₂ hperm h1 h2
    have h2' : levelResolveWith (recAt (maxPathLen ps)) (dedupHeads ps)
        ps e flds = .ok (nd₂, lg₂) := by
      rw [← resolveF_eq]
      exact h2
    unfold resolveSched at h1
    rcases levelResolveWith_ok_shape h1 with ⟨es1, hph1, hnd1, _⟩
    rcases levelResolveWith_ok_shape h2' with ⟨es2, hph2, hnd2, _⟩
    subst hnd1
    subst hnd2
    have hm1 := processHeads_map hph1
    have hm2 := processHeads_map hph2
    have hpermes : es1.Perm es2 := by
      rw [hm1, hm2]
      exact hperm.map _
    have hkeys : (es1.map Prod.fst).Nodup := by
      rw [hm1, List.map_map]
      have hcomp : (Prod.fst ∘ fun s =>
          (s, headValue (recAt (maxPathLen ps)) ps e s)) = id := rfl
      rw [hcomp, List.map_id]
      exact (List.Perm.nodup_iff hperm).mpr (dd_nodup _)
    exact assembleFields_congr (lookupName_perm hpermes hkeys)
  · intro rec sufs kids
    induction kids with
    | nil =>
      intro nds lg h
      simp only [processMany] at h
      cases h
      exact ⟨rfl, fun i h1 h2 => absurd h1 (Nat.not_lt_zero i)⟩
    | cons k rest ih =>
      intro nds lg h
      simp only [processMany] at h
      cases hr : rec (childPaths sufs k) k (childFlds sufs) with
      | error err => rw [hr] at h; cases h
      | ok ndl =>
        rw [hr] at h
        cases hm : processMany rec sufs rest with
        | error err => rw [hm] at h; cases h
        | ok nl =>
          rw [hm] at h
          obtain ⟨nd0, lg0⟩ := ndl
          obtain ⟨nds', lgs⟩ := nl
          cases h
          rcases ih nds' lgs hm with ⟨hlen, hidx⟩
          refine ⟨by simp [hlen], ?_⟩
          intro i h1 h2
          cases i with
          | zero => exact ⟨lg0, hr⟩
          | succ j =>
            have hj1 : j < rest.length := by
              simpa using h1
            have hj2 : j < nds'.length := by
              simpa using h2
            rcases hidx j hj1 hj2 with ⟨lgj, hlgj⟩
            exact ⟨lgj, hlgj⟩

/-- C8: for a whitespace-delimited search query, a resource is in the
search results if and only if every term matches at least one of the
resource's searchable fields — the terms are ANDed together, not ORed. -/
theorem search_terms_anded (rs : List (List (List Char))) (q : List Char)
    (r : List (List Char)) :
    r ∈ searchResults rs q ↔
      r ∈ rs ∧ ∀ t ∈ splitTerms q, ∃ f ∈ r, t <:+: f := by
  unfold searchResults
  generalize splitTerms q = ts
  induction ts generalizing rs with
  | nil => simp
  | cons t ts ih =>
    rw [List.foldl_cons, ih]
    simp only [applySearchTerm, List.mem_filter, List.any_eq_true,
      termMatches, decide_eq_true_eq, List.forall_mem_cons]
    tauto

/-- C9: validation of an Eigenschap record fails with the mutual-exclusion
ValidationError exactly when it does not have exactly one of
specificatie_van_eigenschap and referentie_naar_eigenschap set — it fails
when both are set and when neither is set, and succeeds when exactly one
of them is set. -/
theorem eigenschap_clean_mutual_exclusion (e : Eigenschap) :
    (eigenschapClean e = .ok () ↔
      e.specificatie_van_eigenschap.isSome ≠
        e.referentie_naar_eigenschap.isSome) ∧
    (eigenschapClean e = .error eigenschapCleanMsg ↔
      e.specificatie_van_eigenschap.isSome =
        e.referentie_naar_eigenschap.isSome) := by
  cases hs : e.specificatie_van_eigenschap <;>
    cases hr : e.referentie_naar_eigenschap <;>
      simp [eigenschapClean, hs, hr]

/-- C10 counterexample: two BesluitType records with NULL omschrijving in
the same Catalogus both pass validated save, so the stored pair
(maakt_deel_uit_van, besluittype_omschrijving) is not unique as claimed —
two distinct records of one Catalogus share the same (NULL)
besluittype_omschrijving. -/
theorem besluittype_unique_pair_counterexample :
    buildStore [btNullA, btNullB] = some [btNullA, btNullB] ∧
    btNullA ≠ btNullB ∧
    btNullA.maakt_deel_uit_van = btNullB.maakt_deel_uit_van ∧
    btNullA.besluittype_omschrijving = btNullB.besluittype_omschrijving := by
  refine ⟨rfl, by decide, rfl, rfl⟩

theorem buildStore_invariant (bs : List BesluitType) :
    ∀ acc store, (∀ b ∈ acc, b.reactietermijn ≤ 999) →
    acc.Pairwise (fun a c =>
      a.maakt_deel_uit_van = c.maakt_deel_uit_van →
      a.besluittype_omschrijving = c.besluittype_omschrijving →
      a.besluittype_omschrijving = none) →
    List.foldlM saveBesluitType acc bs = some store →
    (∀ b ∈ store, b.reactietermijn ≤ 999) ∧
    store.Pairwise (fun a c =>
      a.maakt_deel_uit_van = c.maakt_deel_uit_van →
      a.besluittype_omschrijving = c.besluittype_omschrijving →
      a.besluittype_omschrijving = none) := by
  induction bs with
  | nil =>
    intro acc store hb hp h
    simp only [List.foldlM_nil] at h
    cases h
    exact ⟨hb, hp⟩
  | cons b bs ih =>
    intro acc store hb hp h
    simp only [List.foldlM_cons] at h
    cases hsave : saveBesluitType acc b with
    | none => rw [hsave] at h; cases h
    | some acc' =>
      rw [hsave] at h
      simp only [Option.bind_eq_bind, Option.some_bind] at h
      unfold saveBesluitType at hsave
      by_cases hcond : (besluitTypeFieldsValid b &&
          besluitTypeUniqueOk acc b) = true
      · rw [if_pos hcond] at hsave
        have hacc' : acc' = acc ++ [b] := (Option.some.inj hsave).symm
        subst hacc'
        rcases Bool.and_eq_true_iff.mp hcond with ⟨hfv, hun⟩
        have hb999 : b.reactietermijn ≤ 999 := by
          unfold besluitTypeFieldsValid at hfv
          rcases Bool.and_eq_true_iff.mp hfv with ⟨h1, _⟩
          exact of_decide_eq_true h1
        have hb' : ∀ b0 ∈ acc ++ [b], b0.reactietermijn ≤ 999 := by
          intro b0 hb0
          rcases List.mem_append.mp hb0 with h1 | h2
          · exact hb b0 h1
          · rcases List.mem_singleton.mp h2 with rfl
            exact hb999
        have hp' : (acc ++ [b]).Pairwise (fun a c =>
            a.maakt_deel_uit_van = c.maakt_deel_uit_van →
            a.besluittype_omschrijving = c.besluittype_omschrijving →
            a.besluittype_omschrijving = none) := by
          rw [List.pairwise_append]
          refine ⟨hp, List.pairwise_singleton _ _, ?_⟩
          intro a ha b0 hb0
          rcases List.mem_singleton.mp hb0 with rfl
          intro hcat hom
          unfold besluitTypeUniqueOk at hun
          cases homb : b0.besluittype_omschrijving with
          | none => exact hom.trans homb
          | some s =>
            rw [homb] at hun hom
            have hun' : acc.all (fun o =>
                !(decide (o.maakt_deel_uit_van = b0.maakt_deel_uit_van) &&
                  decide (o.besluittype_omschrijving = some s))) = true := hun
            have hthis := List.all_eq_true.mp hun' a ha
            simp only [Bool.not_eq_true', Bool.and_eq_false_iff,
              decide_eq_false_iff_not] at hthis
            rcases hthis with h1 | h2
            · exact absurd hcat h1
            · exact absurd hom h2
        exact ih (acc ++ [b]) store hb' hp' h
      · rw [if_neg hcond] at hsave
        cases hsave

/-- C10 amended: in every store built by validated saves, each record's
reactietermijn is a natural number at most 999, and no two records within
the same Catalogus share the same non-NULL besluittype_omschrijving; two
records may share a NULL omschrijving, since the framework skips the
unique_together check when a field of the tuple is NULL. -/
theorem besluittype_store_invariants (bs store : List BesluitType)
    (h : buildStore bs = some store) :
    (∀ b ∈ store, b.reactietermijn ≤ 999) ∧
    store.Pairwise (fun a c =>
      a.maakt_deel_uit_van = c.maakt_deel_uit_van →
      a.besluittype_omschrijving = c.besluittype_omschrijving →
      a.besluittype_omschrijving = none) :=
  buildStore_invariant bs [] store (fun b hb => absurd hb (List.not_mem_nil b))
    (List.Pairwise.nil) h

/-- Witness for the amended C10 at a concrete one-record store. -/
theorem besluittype_store_invariants_witness :
    (∀ b ∈ [btNamed], b.reactietermijn ≤ 999) ∧
    ([btNamed] : List BesluitType).Pairwise (fun a c =>
      a.maakt_deel_uit_van = c.maakt_deel_uit_van →
      a.besluittype_omschrijving = c.besluittype_omschrijving →
      a.besluittype_omschrijving = none) :=
  besluittype_store_invariants [btNamed] [btNamed] rfl

/-- Witness for C1 at a concrete catalog and FieldSpec. -/
theorem resolve_fieldspec_exact_witness :
    resolve catalogusE (.explicitPaths []) ["domein"] =
      .ok ([("domein", FieldValue.scalar "DEMO")], []) ∧
    ([("domein", FieldValue.scalar "DEMO")] : ResourceNode).map Prod.fst =
      (canonicalNames catalogusE).filter
        (fun n => decide ((["domein"] : List String) = [] ∨
          n ∈ ["domein"])) := by
  refine ⟨rfl, ?_⟩
  exact (resolve_fieldspec_exact catalogusE [] ["domein"] _ _ rfl).1

/-- Witness for C2: the three typed failures at concrete invalid
directives. -/
theorem resolve_invalid_directive_errors_witness :
    (∃ g, g ∈ ["foobar"] ∧ g ∉ canonicalNames catalogusE ∧
      resolve catalogusE (.explicitPaths []) ["foobar"] =
        .error (.unknownField g)) ∧
    resolve catalogusE (.explicitPaths [["foobar"]]) [] =
      .error (.unknownRelation "foobar") ∧
    resolve catalogusE (.explicitPaths [["intern"]]) [] =
      .error (.notExpandable "intern") := by
  refine ⟨?_, ?_, ?_⟩
  · exact resolve_invalid_directive_errors.1 catalogusE [] ["foobar"]
      "foobar" (List.mem_singleton.mpr rfl) (by decide)
  · exact resolve_invalid_directive_errors.2.1 catalogusE [["foobar"]] []
      "foobar" (by intro f hf; cases hf)
      (by intro p hp; exact ⟨"foobar", List.mem_singleton.mp hp⟩)
      (by
        intro p hp h1 heq hne
        rcases List.mem_singleton.mp hp with rfl
        cases heq
        exact absurd rfl hne)
      (List.mem_singleton.mpr rfl) rfl
  · exact resolve_invalid_directive_errors.2.2 catalogusE [["intern"]] []
      "intern" (.relOne "intern" false "/intern/1/" [])
      (by intro f hf; cases hf)
      (by intro p hp; exact ⟨"intern", List.mem_singleton.mp hp⟩)
      (by
        intro p hp h1 heq hne
        rcases List.mem_singleton.mp hp with rfl
        cases heq
        exact absurd rfl hne)
      (List.mem_singleton.mpr rfl) rfl rfl rfl

/-- Witness for C3: with no expansion paths, the besluittypen relation of
the concrete catalog renders as its link. -/
theorem resolve_unexpanded_relation_link_witness :
    resolve catalogusE (.explicitPaths []) [] =
      .ok (linkView catalogusE, []) ∧
    lookupName "besluittypen" (linkView catalogusE) =
      some (.link "/api/v1/catalogussen/1/besluittypen/") := by
  refine ⟨rfl, ?_⟩
  exact resolve_unexpanded_relation_link catalogusE [] [] "besluittypen"
    (.relMany "besluittypen" true "/api/v1/catalogussen/1/besluittypen/"
      [besluitA, besluitB])
    (linkView catalogusE) [] rfl rfl
    (by intro p hp; cases hp) (Or.inl rfl) rfl

/-- Witness for C4: the overlapping paths `besluittypen` and
`besluittypen.besluittype_omschrijving` together trigger exactly one
fetch of the relation. -/
theorem resolve_fetch_once_per_relation_witness :
    resolve catalogusE (.explicitPaths
        [["besluittypen"], ["besluittypen", "besluittype_omschrijving"]])
        [] =
      .ok ([("domein", FieldValue.scalar "DEMO"),
            ("rsin", FieldValue.scalar "123456789"),
            ("contactpersoon_beheer_naam", FieldValue.scalar "John Doe"),
            ("besluittypen", FieldValue.embeddedMany
              [[("besluittype_omschrijving",
                  FieldValue.scalar "Vergunning")],
               [("besluittype_omschrijving",
                  FieldValue.scalar "Ontheffing")]]),
            ("informatieobjecttype",
              FieldValue.link "/api/v1/informatieobjecttypen/1/"),
            ("intern", FieldValue.link "/intern/1/")],
           [["besluittypen"]]) ∧
    ([["besluittypen"]] : FetchLog).count ["besluittypen"] = 1 := by
  refine ⟨rfl, ?_⟩
  have h := resolve_fetch_once_per_relation catalogusE
    [["besluittypen"], ["besluittypen", "besluittype_omschrijving"]] []
    "besluittypen" _ _ rfl
  rw [if_pos ⟨["besluittypen"], List.mem_cons_self _ _, rfl⟩] at h
  exact h

/-- Witness for C5 at the concrete catalog: path
`informatieobjecttype.omschrijving` embeds the relation with exactly the
field `omschrijving`. -/
theorem resolve_nested_path_restricts_embedded_witness :
    resolve catalogusE
      (.explicitPaths [["informatieobjecttype", "omschrijving"]]) [] =
      .ok (assembleFields catalogusE []
        [("informatieobjecttype", .embeddedSingle
          [("omschrijving", FieldValue.scalar "Besluitdocument")])],
        [["informatieobjecttype"]]) ∧
    lookupName "informatieobjecttype" (assembleFields catalogusE []
        [("informatieobjecttype", .embeddedSingle
          [("omschrijving", FieldValue.scalar "Besluitdocument")])]) =
      some (.embeddedSingle
        [("omschrijving", FieldValue.scalar "Besluitdocument")]) := by
  have h := resolve_nested_path_restricts_embedded catalogusE
    "informatieobjecttype" "omschrijving"
    "/api/v1/informatieobjecttypen/1/" informatieObjectTypeA
    "Besluitdocument" [] rfl rfl (by decide) (Or.inl rfl)
    (by intro f hf; cases hf)
  exact ⟨h.1, h.2.1⟩

/-- Witness for C6 at the concrete catalog. -/
theorem resolve_expand_all_one_level_witness :
    (canonicalNames catalogusE).Nodup ∧
    resolve catalogusE .expandAll [] =
      .ok (expandAllView catalogusE,
        (expandableNames catalogusE).map (fun n => [n])) :=
  ⟨by decide, resolve_expand_all_one_level catalogusE (by decide)⟩

/-- Witness for C7: at the two-relation entity the reversed completion
order yields the same output tree, and a concrete cardinality-Many
resolution keeps the fetched nodes in their fetch order. -/
theorem resolve_deterministic_order_witness :
    (([("a", FieldValue.embeddedSingle [("x", FieldValue.scalar "1")]),
       ("b", FieldValue.embeddedSingle [("y", FieldValue.scalar "2")])] :
        ResourceNode) =
      [("a", FieldValue.embeddedSingle [("x", FieldValue.scalar "1")]),
       ("b", FieldValue.embeddedSingle [("y", FieldValue.scalar "2")])]) ∧
    (([[("besluittype_omschrijving", FieldValue.scalar "Vergunning"),
        ("reactietermijn", FieldValue.scalar "14")],
       [("besluittype_omschrijving", FieldValue.scalar "Ontheffing"),
        ("reactietermijn", FieldValue.scalar "30")]] :
        List ResourceNode).length =
      ([besluitA, besluitB] : List Entity).length) := by
  constructor
  · exact resolve_deterministic_order.1 tinyE [["a"], ["b"]] [] ["b", "a"]
      _ _ _ _ (by decide) rfl rfl
  · exact (resolve_deterministic_order.2 (recAt 1) [] [besluitA, besluitB]
      _ _ rfl).1

end ZTC

